import Mathlib

/-!
Verification of the Ed25519 key lifecycle manager (`key-manager.ts`).

The development shallowly embeds the key-management subsystem:

* the PEM codec (`toPEM`, built on the standard base64 alphabet used by
  `btoa`, plus the 64-column line wrapping performed by the
  `replace(/(.{64})/g, '$1\n').trim()` pipeline);
* the key-store data model (`KeyPair`, `KeyStore`) and its operations
  (`loadKeyStore`, `saveKeyStore`, `generateKeyPair`, `createNewKeyPair`,
  `rotateKeys`);
* the file-system effects those operations perform, as explicit lists of
  operations (`FsOp`), so that write footprints and crash behaviour can be
  stated;
* an untyped JSON value type for the load path, which in the source goes
  through `JSON.parse` with no shape validation.

Byte buffers (`ArrayBuffer`/`Uint8Array` in the source) are modelled as
`List Nat` whose elements are below 256.  Machine timestamps and key
material are opaque strings.
-/

namespace KeyManager

/-! ### Base64 (the encoding performed by `btoa`)

`btoa` base64-encodes a binary string using the standard alphabet
`A–Z a–z 0–9 + /` with `=` padding.  The source applies it to the bytes of
the exported key buffer (`String.fromCharCode(...new Uint8Array(buffer))`).
-/

/-- The standard base64 alphabet used by `btoa`. -/
def base64Alphabet : List Char :=
  "ABCDEFGHIJKLMNOPQRSTUVWXYZabcdefghijklmnopqrstuvwxyz0123456789+/".data

/-- The base64 digit for a 6-bit value. -/
def b64Char (n : Nat) : Char := base64Alphabet.getD n 'A'

/-- Index of a character in a list (used to invert the alphabet). -/
def b64Index : List Char → Char → Option Nat
  | [], _ => none
  | d :: rest, c => if d = c then some 0 else (b64Index rest c).map (· + 1)

/-- The 6-bit value of a base64 digit, `none` for characters outside the
alphabet. -/
def b64Val (c : Char) : Option Nat := b64Index base64Alphabet c

/-- Base64 encoding of a byte sequence, three bytes to four digits, with
`=` padding on a final partial group — the encoding `btoa` performs. -/
def base64Encode : List Nat → List Char
  | [] => []
  | [a] => [b64Char (a / 4), b64Char (a % 4 * 16), '=', '=']
  | [a, b] => [b64Char (a / 4), b64Char (a % 4 * 16 + b / 16), b64Char (b % 16 * 4), '=']
  | a :: b :: c :: rest =>
      b64Char (a / 4) :: b64Char (a % 4 * 16 + b / 16) ::
      b64Char (b % 16 * 4 + c / 64) :: b64Char (c % 64) :: base64Encode rest

/-- Base64 decoding: four digits to three bytes, accepting `=` padding in
the final group (as `atob` does).  Fails on characters outside the
alphabet or on a malformed group structure. -/
def base64Decode : List Char → Option (List Nat)
  | [] => some []
  | c1 :: c2 :: c3 :: c4 :: rest =>
      if c3 = '=' ∧ c4 = '=' ∧ rest = [] then
        match b64Val c1, b64Val c2 with
        | some v1, some v2 => some [v1 * 4 + v2 / 16]
        | _, _ => none
      else if c4 = '=' ∧ rest = [] then
        match b64Val c1, b64Val c2, b64Val c3 with
        | some v1, some v2, some v3 => some [v1 * 4 + v2 / 16, v2 % 16 * 16 + v3 / 4]
        | _, _, _ => none
      else
        match b64Val c1, b64Val c2, b64Val c3, b64Val c4, base64Decode rest with
        | some v1, some v2, some v3, some v4, some tail =>
            some ((v1 * 4 + v2 / 16) :: (v2 % 16 * 16 + v3 / 4) :: (v3 % 4 * 64 + v4) :: tail)
        | _, _, _, _, _ => none
  | _ => none

/-! ### 64-column line wrapping

The source produces the PEM body with
`base64.replace(/(.{64})/g, '$1\n').trim()`: a newline is appended after
every complete 64-character run, and `trim` removes the trailing newline
left when the length is an exact multiple of 64.  On newline-free input
(base64 text) this is exactly: insert `'\n'` between consecutive
64-character chunks. -/

/-- The wrapped PEM body: 64-character chunks separated by single
newlines (no trailing newline) — the effect of the regex-plus-`trim`
pipeline on newline-free input. -/
def wrap64 (cs : List Char) : List Char :=
  if cs.length ≤ 64 then cs
  else cs.take 64 ++ '\n' :: wrap64 (cs.drop 64)
termination_by cs.length
decreasing_by simp; omega

/-- The 64-character chunks of a string (last chunk possibly shorter). -/
def chunks64 (cs : List Char) : List (List Char) :=
  if cs.length ≤ 64 then [cs]
  else cs.take 64 :: chunks64 (cs.drop 64)
termination_by cs.length
decreasing_by simp; omega

/-! ### PEM codec -/

/-- `toPEM(buffer, label)` from the source: base64-encode the buffer,
wrap at 64 columns, and surround with `-----BEGIN {label}-----` /
`-----END {label}-----` delimiter lines, with a trailing newline. -/
def toPEM (buffer : List Nat) (label : String) : String :=
  "-----BEGIN " ++ label ++ "-----\n" ++
    String.mk (wrap64 (base64Encode buffer)) ++
    "\n-----END " ++ label ++ "-----\n"

/-- The opening delimiter line of a PEM block, newline included. -/
def pemHeader (label : String) : String := "-----BEGIN " ++ label ++ "-----\n"

/-- The closing delimiter of a PEM block, with the newline that separates
it from the body and its trailing newline. -/
def pemFooter (label : String) : String := "\n-----END " ++ label ++ "-----\n"

/-- Modelled from the spec: the source defines no decoder ("no decode
operation is required by this core"); the spec prescribes the reference
decoder — strip the BEGIN/END delimiter lines (checking the labels),
concatenate the body lines, and base64-decode; any mismatch is malformed
(`none`). -/
def pemDecode (label : String) (text : String) : Option (List Nat) :=
  let cs := text.data
  let h := (pemHeader label).data
  let f := (pemFooter label).data
  if cs.take h.length = h then
    if cs.drop (cs.length - f.length) = f then
      base64Decode (((cs.drop h.length).take (cs.length - h.length - f.length)).filter
        (fun c => c ≠ '\n'))
    else none
  else none

/-! ### Decimal rendering of version numbers

JavaScript template interpolation `${version}` renders a nonnegative
integer as its decimal digit string. -/

/-- The decimal digit character for a value below 10. -/
def decDigit (n : Nat) : Char := "0123456789".data.getD n '0'

/-- The numeric value of a decimal digit character. -/
def decDigitVal (c : Char) : Nat :=
  if c = '1' then 1 else if c = '2' then 2 else if c = '3' then 3
  else if c = '4' then 4 else if c = '5' then 5 else if c = '6' then 6
  else if c = '7' then 7 else if c = '8' then 8 else if c = '9' then 9 else 0

/-- Decimal digit list, most significant first, with an explicit
recursion bound (any `fuel > n` is enough). -/
def natDigitsCore : Nat → Nat → List Char
  | 0, _ => []
  | fuel + 1, n =>
      if n < 10 then [decDigit n]
      else natDigitsCore fuel (n / 10) ++ [decDigit (n % 10)]

/-- Decimal digit list of a nonnegative integer, most significant first —
the rendering performed by `${version}`. -/
def natDigits (n : Nat) : List Char := natDigitsCore (n + 1) n

/-- Decimal string of a nonnegative integer. -/
def natToDecimal (n : Nat) : String := String.mk (natDigits n)

/-- Value of a digit list, most significant first. -/
def decValue (cs : List Char) : Nat := cs.foldl (fun a c => a * 10 + decDigitVal c) 0

/-! ### Key store data model -/

/-- One versioned key pair, as stored in the keystore (interface
`KeyPair`).  `privateKey` and `publicKey` hold PEM text; `createdAt` holds
an ISO timestamp string. -/
structure KeyPair where
  privateKey : String
  publicKey : String
  createdAt : String
  version : Nat
  deriving DecidableEq, Repr

/-- The keystore (interface `KeyStore`): the active version number and the
ordered list of all key pairs. -/
structure KeyStore where
  currentVersion : Nat
  keys : List KeyPair
  deriving DecidableEq, Repr

/-- The fresh empty store `{ currentVersion: 0, keys: [] }`. -/
def emptyStore : KeyStore := { currentVersion := 0, keys := [] }

/-- The store invariant: the versions of the stored keys, in insertion
order, are exactly `1, 2, …, currentVersion`.  This packages uniqueness,
contiguity from 1, ascending insertion order, and
`currentVersion = max version` (0 when empty). -/
def storeInv (s : KeyStore) : Prop :=
  s.keys.map KeyPair.version = List.range' 1 s.currentVersion

instance (s : KeyStore) : Decidable (storeInv s) := by
  unfold storeInv; infer_instance

/-! ### File-system paths and serialized form -/

/-- `KEYS_DIR` from the source. -/
def KEYS_DIR : String := "./.keys"

/-- `KEY_STORE_FILE = join(KEYS_DIR, 'keystore.json')`. -/
def KEY_STORE_FILE : String := KEYS_DIR ++ "/keystore.json"

/-- `join(KEYS_DIR, `private-v${version}.pem`)`. -/
def privateKeyPath (version : Nat) : String :=
  KEYS_DIR ++ "/private-v" ++ natToDecimal version ++ ".pem"

/-- `join(KEYS_DIR, `public-v${version}.pem`)`. -/
def publicKeyPath (version : Nat) : String :=
  KEYS_DIR ++ "/public-v" ++ natToDecimal version ++ ".pem"

/-- Hexadecimal digit (lower case), for JSON control-character escapes. -/
def hexDigit (n : Nat) : Char := "0123456789abcdef".data.getD n '0'

/-- JSON string-character escaping as performed by `JSON.stringify`. -/
def escapeJsonChar (c : Char) : String :=
  if c = '"' then "\\\""
  else if c = '\\' then "\\\\"
  else if c = '\n' then "\\n"
  else if c = '\r' then "\\r"
  else if c = '\t' then "\\t"
  else if c = Char.ofNat 8 then "\\b"
  else if c = Char.ofNat 12 then "\\f"
  else if c.toNat < 32 then
    "\\u00" ++ String.mk [hexDigit (c.toNat / 16), hexDigit (c.toNat % 16)]
  else String.mk [c]

/-- A JSON string literal with escaping. -/
def jsonStringOf (s : String) : String :=
  "\"" ++ String.join (s.data.map escapeJsonChar) ++ "\""

/-- One `KeyPair` as serialized inside the `keys` array by
`JSON.stringify(keyStore, null, 2)` (two-space indent, nesting depth 2). -/
def stringifyKeyPair (kp : KeyPair) : String :=
  "\x7b\n      \"privateKey\": " ++ jsonStringOf kp.privateKey ++
  ",\n      \"publicKey\": " ++ jsonStringOf kp.publicKey ++
  ",\n      \"createdAt\": " ++ jsonStringOf kp.createdAt ++
  ",\n      \"version\": " ++ natToDecimal kp.version ++ "\n    \x7d"

/-- `JSON.stringify(keyStore, null, 2)`: the pretty-printed persisted form
of the store. -/
def stringifyKeyStore (s : KeyStore) : String :=
  "\x7b\n  \"currentVersion\": " ++ natToDecimal s.currentVersion ++
  ",\n  \"keys\": " ++
  (match s.keys with
   | [] => "[]"
   | ks => "[\n    " ++ String.intercalate ",\n    " (ks.map stringifyKeyPair) ++ "\n  ]") ++
  "\n\x7d"

/-! ### File-system effects

The operations' writes are recorded as explicit lists of file-system
operations.  `rename` is in the vocabulary because an atomic-save
discipline would use it; the source never emits it. -/

/-- A file-system operation performed by the key manager. -/
inductive FsOp where
  | ensureDir (path : String)
  | writeFile (path : String) (content : String)
  | rename (src : String) (dst : String)
  deriving DecidableEq, Repr

/-- The paths of per-version key files written by a list of operations:
every written path other than the store file itself (the only other
writes the manager performs are `private-v{N}.pem` / `public-v{N}.pem`). -/
def keyFileWritePaths (ops : List FsOp) : List String :=
  ops.filterMap fun op =>
    match op with
    | .writeFile p _ => if p = KEY_STORE_FILE then none else some p
    | _ => none

/-! ### Operations -/

/-- The error taxonomy entry for a failed key generation: the
cryptographic primitive was unavailable or rejected the request, and the
exception propagates. -/
inductive KeyGenError where
  | keyGenerationError
  deriving DecidableEq, Repr

/-- Outcome of the cryptographic primitive
(`crypto.subtle.generateKey` + `exportKey`): either the exported PKCS8
private and SPKI public buffers, or failure. -/
inductive CryptoOutcome where
  | ok (pkcs8 : List Nat) (spki : List Nat)
  | failure
  deriving DecidableEq, Repr

/-- `generateKeyPair()`: obtain an Ed25519 key pair from the primitive,
export the private half as PKCS8 and the public half as SPKI, and encode
both through the PEM codec; a primitive failure propagates as
`KeyGenerationError`. -/
def generateKeyPair (cr : CryptoOutcome) : Except KeyGenError (String × String) :=
  match cr with
  | .ok pkcs8 spki => .ok (toPEM pkcs8 "PRIVATE KEY", toPEM spki "PUBLIC KEY")
  | .failure => .error .keyGenerationError

/-- `saveKeyStore(keyStore)`: one direct write of the serialized store to
`KEY_STORE_FILE` (`Deno.writeTextFile`). -/
def saveKeyStoreRun (s : KeyStore) : List FsOp :=
  [.writeFile KEY_STORE_FILE (stringifyKeyStore s)]

/-- `saveKeyFiles(version, privateKey, publicKey)`: write the two
per-version PEM files. -/
def saveKeyFilesOps (version : Nat) (privateKey publicKey : String) : List FsOp :=
  [.writeFile (privateKeyPath version) privateKey,
   .writeFile (publicKeyPath version) publicKey]

/-- `createNewKeyPair()` given the loaded store `s`, the primitive's
outcome and the current timestamp: ensure the directory, compute
`newVersion = currentVersion + 1`, generate (aborting on failure with
nothing written beyond the directory), save the key files, append the new
entry, advance `currentVersion`, and save the store.  Returns the
performed file-system operations in order and the result handed to the
caller. -/
def createNewKeyPairRun (s : KeyStore) (cr : CryptoOutcome) (now : String) :
    List FsOp × Except KeyGenError KeyStore :=
  let newVersion := s.currentVersion + 1
  match generateKeyPair cr with
  | .error e => ([.ensureDir KEYS_DIR], .error e)
  | .ok (privateKey, publicKey) =>
      let newStore : KeyStore :=
        { currentVersion := newVersion,
          keys := s.keys ++ [{ privateKey := privateKey, publicKey := publicKey,
                               createdAt := now, version := newVersion }] }
      (.ensureDir KEYS_DIR :: saveKeyFilesOps newVersion privateKey publicKey ++
         saveKeyStoreRun newStore,
       .ok newStore)

/-- `rotateKeys()` given the loaded store: on an empty store delegate to
`createNewKeyPair` (first-time creation); otherwise create the next
version through `createNewKeyPair` as well — the source's two branches
differ only in logging. -/
def rotateKeysRun (s : KeyStore) (cr : CryptoOutcome) (now : String) :
    List FsOp × Except KeyGenError KeyStore :=
  if s.keys.length = 0 then createNewKeyPairRun s cr now
  else createNewKeyPairRun s cr now

/-! ### Operation sequences

The persisted store is modelled by the `KeyStore` value it holds:
`loadKeyStore` returns it and `saveKeyStore` replaces it (a successful
save/load round-trips).  A failed operation leaves the persisted store
as it was. -/

/-- One invocation of the manager: `createNewKeyPair` or `rotateKeys`,
with the primitive's outcome and the timestamp of the call. -/
inductive Step where
  | create (cr : CryptoOutcome) (now : String)
  | rotate (cr : CryptoOutcome) (now : String)
  deriving DecidableEq, Repr

/-- Run one step against the persisted store: the operations performed and
the resulting persisted store (unchanged when the step fails). -/
def runStep (s : KeyStore) (st : Step) : List FsOp × KeyStore :=
  match st with
  | .create cr now =>
      match createNewKeyPairRun s cr now with
      | (ops, .ok ns) => (ops, ns)
      | (ops, .error _) => (ops, s)
  | .rotate cr now =>
      match rotateKeysRun s cr now with
      | (ops, .ok ns) => (ops, ns)
      | (ops, .error _) => (ops, s)

/-- Run a sequence of steps, accumulating the performed operations. -/
def runTrace (s : KeyStore) : List Step → List FsOp × KeyStore
  | [] => ([], s)
  | st :: tr =>
      let (ops1, s1) := runStep s st
      let (ops2, s2) := runTrace s1 tr
      (ops1 ++ ops2, s2)

/-! ### The load path

`loadKeyStore` reads the store file and runs it through `JSON.parse`,
returning whatever value parses — the `KeyStore` type ascription is not
checked at runtime.  The file's state is abstracted by the outcome of
reading and parsing it: missing, unreadable (the read throws), present
but not syntactically valid JSON (the parse throws), or present and
parsing to a JSON value. -/

/-- An untyped JSON value, the possible results of `JSON.parse`. -/
inductive Json where
  | null
  | bool (b : Bool)
  | num (n : Int)
  | str (s : String)
  | arr (elems : List Json)
  | obj (fields : List (String × Json))

/-- The JSON value of the fresh empty store `{ currentVersion: 0, keys: [] }`. -/
def emptyStoreJson : Json :=
  .obj [("currentVersion", .num 0), ("keys", .arr [])]

/-- The observable state of the store file at load time. -/
inductive FileState where
  | missing
  | unreadable
  | invalidJson (raw : String)
  | validJson (j : Json)

/-- `loadKeyStore()`: if the file exists, read and `JSON.parse` it and
return the parsed value; a read or parse exception is caught, a warning
is logged, and — as for a missing file — the fresh empty store is
returned.  The returned flag records whether the warning was emitted. -/
def loadKeyStoreRun : FileState → Json × Bool
  | .missing => (emptyStoreJson, false)
  | .unreadable => (emptyStoreJson, true)
  | .invalidJson _ => (emptyStoreJson, true)
  | .validJson j => (j, false)

/-- Whether a JSON value has the `KeyStore` shape at the top level: an
object with a numeric `currentVersion` field and an array `keys` field. -/
def hasKeyStoreShape : Json → Bool
  | .obj fields =>
      (fields.any fun f => match f with | (k, .num _) => k = "currentVersion" | _ => false) &&
      (fields.any fun f => match f with | (k, .arr _) => k = "keys" | _ => false)
  | _ => false

/-! ### Crash model for `saveKeyStore`

The file system is an association list from paths to contents.  A direct
write interrupted by a crash can leave any prefix of the new content at
the target path; a rename is atomic.  `crashStates fs ops` collects every
file-system state observable if the process stops at any point while
performing `ops`. -/

/-- File-system contents: path ↦ file text. -/
abbrev Fs : Type := List (String × String)

/-- Content of a file, `none` when absent. -/
def lookupFs (p : String) : Fs → Option String
  | [] => none
  | (q, c) :: rest => if q = p then some c else lookupFs p rest

/-- Set the content of a file. -/
def setFs (p : String) (c : String) (fs : Fs) : Fs := (p, c) :: fs

/-- Apply one completed operation to the file system (`ensureDir` touches
no file; `rename` moves content). -/
def execOp (fs : Fs) : FsOp → Fs
  | .ensureDir _ => fs
  | .writeFile p c => setFs p c fs
  | .rename src dst =>
      match lookupFs src fs with
      | some c => setFs dst c fs
      | none => fs

/-- All prefixes of a string (the possible on-disk contents of an
interrupted direct write). -/
def stringPrefixes (c : String) : List String :=
  (List.range (c.data.length + 1)).map fun n => String.mk (c.data.take n)

/-- The file-system states observable while one operation is in progress
(the state just before it included).  An interrupted `writeFile` can leave
any prefix of the new content; `ensureDir` and `rename` expose no partial
state. -/
def opMidStates (fs : Fs) : FsOp → List Fs
  | .ensureDir _ => [fs]
  | .writeFile p c => fs :: (stringPrefixes c).map fun pre => setFs p pre fs
  | .rename _ _ => [fs]

/-- Every file-system state observable if the process crashes at any point
of an operation sequence (the final state included). -/
def crashStates (fs : Fs) : List FsOp → List Fs
  | [] => [fs]
  | op :: rest => opMidStates fs op ++ crashStates (execOp fs op) rest

/-- The atomic-overwrite property the spec asserts of `saveKeyStore`: at
every crash point the store file reads as either the old content or the
complete new serialization. -/
def atomicSave : Prop :=
  ∀ (s : KeyStore) (fs : Fs), ∀ fs' ∈ crashStates fs (saveKeyStoreRun s),
    lookupFs KEY_STORE_FILE fs' = lookupFs KEY_STORE_FILE fs ∨
    lookupFs KEY_STORE_FILE fs' = some (stringifyKeyStore s)

/-! ## Basic facts about the operations -/

/-- The two branches of `rotateKeys` both run `createNewKeyPair`; they
differ only in logging. -/
theorem rotateKeysRun_eq (s : KeyStore) (cr : CryptoOutcome) (now : String) :
    rotateKeysRun s cr now = createNewKeyPairRun s cr now := by
  simp only [rotateKeysRun, ite_self]

theorem runStep_rotate_eq (s : KeyStore) (cr : CryptoOutcome) (now : String) :
    runStep s (.rotate cr now) = runStep s (.create cr now) := by
  simp only [runStep, rotateKeysRun_eq]

/-- Explicit form of a successful `createNewKeyPair`. -/
theorem createNewKeyPairRun_ok (s : KeyStore) (pkcs8 spki : List Nat) (now : String) :
    createNewKeyPairRun s (.ok pkcs8 spki) now =
      ([.ensureDir KEYS_DIR,
        .writeFile (privateKeyPath (s.currentVersion + 1)) (toPEM pkcs8 "PRIVATE KEY"),
        .writeFile (publicKeyPath (s.currentVersion + 1)) (toPEM spki "PUBLIC KEY"),
        .writeFile KEY_STORE_FILE (stringifyKeyStore
          { currentVersion := s.currentVersion + 1,
            keys := s.keys ++ [{ privateKey := toPEM pkcs8 "PRIVATE KEY",
                                 publicKey := toPEM spki "PUBLIC KEY",
                                 createdAt := now, version := s.currentVersion + 1 }] })],
       .ok { currentVersion := s.currentVersion + 1,
             keys := s.keys ++ [{ privateKey := toPEM pkcs8 "PRIVATE KEY",
                                  publicKey := toPEM spki "PUBLIC KEY",
                                  createdAt := now, version := s.currentVersion + 1 }] }) := rfl

theorem runStep_create_ok (s : KeyStore) (pkcs8 spki : List Nat) (now : String) :
    runStep s (.create (.ok pkcs8 spki) now) =
      ((createNewKeyPairRun s (.ok pkcs8 spki) now).1,
       { currentVersion := s.currentVersion + 1,
         keys := s.keys ++ [{ privateKey := toPEM pkcs8 "PRIVATE KEY",
                              publicKey := toPEM spki "PUBLIC KEY",
                              createdAt := now, version := s.currentVersion + 1 }] }) := rfl

theorem createNewKeyPairRun_failure (s : KeyStore) (now : String) :
    createNewKeyPairRun s .failure now =
      ([.ensureDir KEYS_DIR], .error .keyGenerationError) := rfl

theorem runStep_create_failure (s : KeyStore) (now : String) :
    runStep s (.create .failure now) = ([.ensureDir KEYS_DIR], s) := rfl

/-- `storeInv` holds of the empty store. -/
theorem storeInv_empty : storeInv emptyStore := rfl

/-- One step — successful or not — preserves the store invariant. -/
theorem storeInv_runStep (s : KeyStore) (st : Step) (h : storeInv s) :
    storeInv (runStep s st).2 := by
  have hcreate : ∀ (cr : CryptoOutcome) (now : String),
      storeInv (runStep s (.create cr now)).2 := by
    intro cr now
    cases cr with
    | failure => exact h
    | ok pkcs8 spki =>
        rw [runStep_create_ok]
        unfold storeInv at h ⊢
        simp only [List.map_append, List.map_cons, List.map_nil, h, List.range'_concat]
        simp [Nat.add_comm, Nat.one_mul]

  cases st with
  | create cr now => exact hcreate cr now
  | rotate cr now => rw [runStep_rotate_eq]; exact hcreate cr now

/-- The invariant holds after any trace of steps from an invariant store. -/
theorem storeInv_runTrace (tr : List Step) (s : KeyStore) (h : storeInv s) :
    storeInv (runTrace s tr).2 := by
  induction tr generalizing s with
  | nil => exact h
  | cons st tr ih =>
      show storeInv (runTrace s (st :: tr)).2
      simp only [runTrace]
      exact ih _ (storeInv_runStep s st h)

/-! ## Decimal rendering and path disequalities -/

theorem decDigitVal_decDigit : ∀ d, d < 10 → decDigitVal (decDigit d) = d := by decide

theorem decValue_append (cs : List Char) (c : Char) :
    decValue (cs ++ [c]) = decValue cs * 10 + decDigitVal c := by
  unfold decValue
  rw [List.foldl_append]
  rfl

theorem decValue_natDigitsCore :
    ∀ (fuel n : Nat), n < fuel → decValue (natDigitsCore fuel n) = n := by
  intro fuel
  induction fuel with
  | zero => omega
  | succ fuel ih =>
      intro n hn
      unfold natDigitsCore
      by_cases h : n < 10
      · rw [if_pos h]
        show decValue ([] ++ [decDigit n]) = n
        rw [decValue_append, decDigitVal_decDigit n h]
        simp [decValue]
      · rw [if_neg h]
        have hdiv : n / 10 < n := Nat.div_lt_self (by omega) (by omega)
        rw [decValue_append, ih (n / 10) (by omega),
          decDigitVal_decDigit (n % 10) (by omega)]
        omega

theorem decValue_natDigits (n : Nat) : decValue (natDigits n) = n :=
  decValue_natDigitsCore (n + 1) n (by omega)

theorem natDigits_inj {a b : Nat} (h : natDigits a = natDigits b) : a = b := by
  have := congrArg decValue h
  rwa [decValue_natDigits, decValue_natDigits] at this

theorem privateKeyPath_data (v : Nat) :
    (privateKeyPath v).data = "./.keys/private-v".data ++ (natDigits v ++ ".pem".data) := by
  have h1 : ("./.keys" ++ "/private-v" : String).data = "./.keys/private-v".data := by decide
  simp only [privateKeyPath, KEYS_DIR, natToDecimal, String.data_append] at h1 ⊢
  rw [h1, List.append_assoc]

theorem publicKeyPath_data (v : Nat) :
    (publicKeyPath v).data = "./.keys/public-v".data ++ (natDigits v ++ ".pem".data) := by
  have h1 : ("./.keys" ++ "/public-v" : String).data = "./.keys/public-v".data := by decide
  simp only [publicKeyPath, KEYS_DIR, natToDecimal, String.data_append] at h1 ⊢
  rw [h1, List.append_assoc]

theorem privateKeyPath_inj {v w : Nat} (h : privateKeyPath v = privateKeyPath w) : v = w := by
  have hd := congrArg String.data h
  rw [privateKeyPath_data, privateKeyPath_data] at hd
  exact natDigits_inj (List.append_cancel_right (List.append_cancel_left hd))

theorem publicKeyPath_inj {v w : Nat} (h : publicKeyPath v = publicKeyPath w) : v = w := by
  have hd := congrArg String.data h
  rw [publicKeyPath_data, publicKeyPath_data] at hd
  exact natDigits_inj (List.append_cancel_right (List.append_cancel_left hd))

theorem privateKeyPath_ne_publicKeyPath (v w : Nat) : privateKeyPath v ≠ publicKeyPath w := by
  intro h
  have hd := congrArg (fun s => s.data[9]?) h
  simp only [privateKeyPath_data, publicKeyPath_data] at hd
  rw [List.getElem?_append_left (by decide), List.getElem?_append_left (by decide)] at hd
  revert hd
  decide

theorem privateKeyPath_ne_store (v : Nat) : privateKeyPath v ≠ KEY_STORE_FILE := by
  intro h
  have hd := congrArg (fun s => s.data[8]?) h
  simp only [privateKeyPath_data] at hd
  rw [List.getElem?_append_left (by decide)] at hd
  revert hd
  decide

theorem publicKeyPath_ne_store (v : Nat) : publicKeyPath v ≠ KEY_STORE_FILE := by
  intro h
  have hd := congrArg (fun s => s.data[8]?) h
  simp only [publicKeyPath_data] at hd
  rw [List.getElem?_append_left (by decide)] at hd
  revert hd
  decide

/-! ## Key-file write footprints -/

theorem keyFileWritePaths_create_ok (s : KeyStore) (pkcs8 spki : List Nat) (now : String) :
    keyFileWritePaths (createNewKeyPairRun s (.ok pkcs8 spki) now).1 =
      [privateKeyPath (s.currentVersion + 1), publicKeyPath (s.currentVersion + 1)] := by
  rw [createNewKeyPairRun_ok]
  simp [keyFileWritePaths, List.filterMap,
    privateKeyPath_ne_store (s.currentVersion + 1), publicKeyPath_ne_store (s.currentVersion + 1)]

theorem keyFileWritePaths_create_failure (s : KeyStore) (now : String) :
    keyFileWritePaths (createNewKeyPairRun s .failure now).1 = [] := by
  rw [createNewKeyPairRun_failure]
  rfl

theorem keyFileWritePaths_append (a b : List FsOp) :
    keyFileWritePaths (a ++ b) = keyFileWritePaths a ++ keyFileWritePaths b := by
  unfold keyFileWritePaths
  exact List.filterMap_append a b _

theorem runTrace_cons_fst (s : KeyStore) (st : Step) (tr : List Step) :
    (runTrace s (st :: tr)).1 =
      (runStep s st).1 ++ (runTrace (runStep s st).2 tr).1 := rfl

theorem runTrace_cons_snd (s : KeyStore) (st : Step) (tr : List Step) :
    (runTrace s (st :: tr)).2 = (runTrace (runStep s st).2 tr).2 := rfl

/-- Write footprint and version growth of a whole trace: every
per-version key file written carries a version strictly above the
starting `currentVersion` and at most the final one, the written paths
are pairwise distinct, and `currentVersion` never decreases. -/
theorem runTrace_keyfiles : ∀ (tr : List Step) (s : KeyStore),
    s.currentVersion ≤ (runTrace s tr).2.currentVersion ∧
    (∀ p ∈ keyFileWritePaths (runTrace s tr).1, ∃ v, s.currentVersion < v ∧
        v ≤ (runTrace s tr).2.currentVersion ∧
        (p = privateKeyPath v ∨ p = publicKeyPath v)) ∧
    (keyFileWritePaths (runTrace s tr).1).Nodup := by
  intro tr
  induction tr with
  | nil =>
      intro s
      refine ⟨Nat.le_refl _, ?_, ?_⟩
      · intro p hp
        simp [runTrace, keyFileWritePaths] at hp
      · simp [runTrace, keyFileWritePaths]
  | cons st tr ih =>
      intro s
      obtain ⟨cr, now, hstep⟩ : ∃ cr now, runStep s st = runStep s (.create cr now) := by
        cases st with
        | create cr now => exact ⟨cr, now, rfl⟩
        | rotate cr now => exact ⟨cr, now, runStep_rotate_eq s cr now⟩
      rw [runTrace_cons_fst, runTrace_cons_snd, hstep]
      cases cr with
      | failure =>
          rw [runStep_create_failure]
          obtain ⟨hle, hbound, hnodup⟩ := ih s
          have hops : keyFileWritePaths ([FsOp.ensureDir KEYS_DIR] ++ (runTrace s tr).1) =
              keyFileWritePaths (runTrace s tr).1 := by
            rw [keyFileWritePaths_append]
            rfl
          exact ⟨hle, by rw [hops]; exact hbound, by rw [hops]; exact hnodup⟩
      | ok pkcs8 spki =>
          obtain ⟨hle, hbound, hnodup⟩ := ih (runStep s (.create (.ok pkcs8 spki) now)).2
          have hcv : (runStep s (.create (.ok pkcs8 spki) now)).2.currentVersion =
              s.currentVersion + 1 := rfl
          have hops : keyFileWritePaths ((runStep s (.create (.ok pkcs8 spki) now)).1 ++
                (runTrace (runStep s (.create (.ok pkcs8 spki) now)).2 tr).1) =
              privateKeyPath (s.currentVersion + 1) :: publicKeyPath (s.currentVersion + 1) ::
                keyFileWritePaths (runTrace (runStep s (.create (.ok pkcs8 spki) now)).2 tr).1 := by
            rw [keyFileWritePaths_append]
            have h1 : (runStep s (.create (.ok pkcs8 spki) now)).1 =
                (createNewKeyPairRun s (.ok pkcs8 spki) now).1 := rfl
            rw [h1, keyFileWritePaths_create_ok]
            rfl
          rw [hcv] at hle hbound
          refine ⟨by omega, ?_, ?_⟩
          · intro p hp
            rw [hops] at hp
            simp only [List.mem_cons] at hp
            rcases hp with hp | hp | hp
            · exact ⟨s.currentVersion + 1, by omega, by omega, Or.inl hp⟩
            · exact ⟨s.currentVersion + 1, by omega, by omega, Or.inr hp⟩
            · obtain ⟨v, hv1, hv2, hor⟩ := hbound p hp
              exact ⟨v, by omega, hv2, hor⟩
          · rw [hops]
            refine List.Nodup.cons ?_ (List.Nodup.cons ?_ hnodup)
            · intro hmem
              rcases List.mem_cons.mp hmem with h | h
              · exact privateKeyPath_ne_publicKeyPath _ _ h
              · obtain ⟨v, hv1, _, hor⟩ := hbound _ h
                rcases hor with h2 | h2
                · have := privateKeyPath_inj h2
                  omega
                · exact privateKeyPath_ne_publicKeyPath _ _ h2
            · intro hmem
              obtain ⟨v, hv1, _, hor⟩ := hbound _ hmem
              rcases hor with h2 | h2
              · exact privateKeyPath_ne_publicKeyPath _ _ h2.symm
              · have := publicKeyPath_inj h2
                omega

/-! ## PEM codec lemmas -/

theorem b64Val_b64Char : ∀ n, n < 64 → b64Val (b64Char n) = some n := by decide

theorem b64Char_ne_pad : ∀ n, n < 64 → b64Char n ≠ '=' := by decide

theorem b64Char_ne_newline (n : Nat) : b64Char n ≠ '\n' := by
  have hb : ∀ m, m < 64 → b64Char m ≠ '\n' := by decide
  by_cases h : n < 64
  · exact hb n h
  · unfold b64Char
    rw [List.getD_eq_default]
    · decide
    · have hlen : base64Alphabet.length = 64 := by decide
      omega

theorem base64Encode_ne_newline : ∀ (bs : List Nat), ∀ ch ∈ base64Encode bs, ch ≠ '\n'
  | [] => by simp [base64Encode]
  | [a] => by
      intro ch hch
      simp only [base64Encode, List.mem_cons, List.not_mem_nil, or_false] at hch
      rcases hch with h | h | h | h
      · rw [h]; exact b64Char_ne_newline _
      · rw [h]; exact b64Char_ne_newline _
      · rw [h]; decide
      · rw [h]; decide
  | [a, b] => by
      intro ch hch
      simp only [base64Encode, List.mem_cons, List.not_mem_nil, or_false] at hch
      rcases hch with h | h | h | h
      · rw [h]; exact b64Char_ne_newline _
      · rw [h]; exact b64Char_ne_newline _
      · rw [h]; exact b64Char_ne_newline _
      · rw [h]; decide
  | a :: b :: c :: rest => by
      intro ch hch
      simp only [base64Encode, List.mem_cons] at hch
      rcases hch with h | h | h | h | h
      · rw [h]; exact b64Char_ne_newline _
      · rw [h]; exact b64Char_ne_newline _
      · rw [h]; exact b64Char_ne_newline _
      · rw [h]; exact b64Char_ne_newline _
      · exact base64Encode_ne_newline rest ch h

theorem base64Decode_encode : ∀ (bs : List Nat), (∀ b ∈ bs, b < 256) →
    base64Decode (base64Encode bs) = some bs
  | [] => fun _ => rfl
  | [a] => fun h => by
      have ha : a < 256 := h a (by simp)
      show base64Decode [b64Char (a / 4), b64Char (a % 4 * 16), '=', '='] = some [a]
      simp only [base64Decode]
      rw [if_pos (by simp),
        b64Val_b64Char (a / 4) (by omega), b64Val_b64Char (a % 4 * 16) (by omega)]
      have h1 : a / 4 * 4 + a % 4 * 16 / 16 = a := by omega
      simp only [h1]
  | [a, b] => fun h => by
      have ha : a < 256 := h a (by simp)
      have hb : b < 256 := h b (by simp)
      show base64Decode
        [b64Char (a / 4), b64Char (a % 4 * 16 + b / 16), b64Char (b % 16 * 4), '='] = some [a, b]
      simp only [base64Decode]
      rw [if_neg, if_pos (by simp)]
      · rw [b64Val_b64Char (a / 4) (by omega), b64Val_b64Char (a % 4 * 16 + b / 16) (by omega),
          b64Val_b64Char (b % 16 * 4) (by omega)]
        have h1 : a / 4 * 4 + (a % 4 * 16 + b / 16) / 16 = a := by omega
        have h2 : (a % 4 * 16 + b / 16) % 16 * 16 + b % 16 * 4 / 4 = b := by omega
        simp only [h1, h2]
      · intro hcon
        exact b64Char_ne_pad (b % 16 * 4) (by omega) hcon.1
  | a :: b :: c :: rest => fun h => by
      have ha : a < 256 := h a (by simp)
      have hb : b < 256 := h b (by simp)
      have hc : c < 256 := h c (by simp)
      have ih := base64Decode_encode rest (fun x hx => h x (by simp [hx]))
      show base64Decode (b64Char (a / 4) :: b64Char (a % 4 * 16 + b / 16) ::
        b64Char (b % 16 * 4 + c / 64) :: b64Char (c % 64) :: base64Encode rest) =
        some (a :: b :: c :: rest)
      simp only [base64Decode]
      rw [if_neg, if_neg]
      · rw [b64Val_b64Char (a / 4) (by omega), b64Val_b64Char (a % 4 * 16 + b / 16) (by omega),
          b64Val_b64Char (b % 16 * 4 + c / 64) (by omega), b64Val_b64Char (c % 64) (by omega),
          ih]
        have h1 : a / 4 * 4 + (a % 4 * 16 + b / 16) / 16 = a := by omega
        have h2 : (a % 4 * 16 + b / 16) % 16 * 16 + (b % 16 * 4 + c / 64) / 4 = b := by omega
        have h3 : (b % 16 * 4 + c / 64) % 4 * 64 + c % 64 = c := by omega
        simp only [h1, h2, h3]
      · intro hcon
        exact b64Char_ne_pad (c % 64) (by omega) hcon.1
      · intro hcon
        exact b64Char_ne_pad (b % 16 * 4 + c / 64) (by omega) hcon.1

theorem wrap64_short (cs : List Char) (h : cs.length ≤ 64) : wrap64 cs = cs := by
  unfold wrap64
  rw [if_pos h]

theorem wrap64_long (cs : List Char) (h : ¬ cs.length ≤ 64) :
    wrap64 cs = cs.take 64 ++ '\n' :: wrap64 (cs.drop 64) := by
  conv_lhs => rw [wrap64]
  rw [if_neg h]

theorem wrap64_filter : ∀ (cs : List Char), (∀ c ∈ cs, c ≠ '\n') →
    (wrap64 cs).filter (fun c => c ≠ '\n') = cs := by
  intro cs
  induction cs using wrap64.induct with
  | case1 cs h1 =>
      intro h
      rw [wrap64_short cs h1]
      exact List.filter_eq_self.mpr (by simpa using h)
  | case2 cs h1 ih =>
      intro h
      rw [wrap64_long cs h1, List.filter_append, List.filter_cons]
      rw [if_neg (by decide)]
      rw [ih (fun c hc => h c (List.mem_of_mem_drop hc))]
      rw [List.filter_eq_self.mpr (fun c hc => by
        simpa using h c (List.mem_of_mem_take hc))]
      exact List.take_append_drop 64 cs

theorem chunks64_short (cs : List Char) (h : cs.length ≤ 64) : chunks64 cs = [cs] := by
  unfold chunks64
  rw [if_pos h]

theorem chunks64_long (cs : List Char) (h : ¬ cs.length ≤ 64) :
    chunks64 cs = cs.take 64 :: chunks64 (cs.drop 64) := by
  conv_lhs => rw [chunks64]
  rw [if_neg h]

theorem chunks64_ne_nil (cs : List Char) : chunks64 cs ≠ [] := by
  by_cases h : cs.length ≤ 64
  · rw [chunks64_short cs h]
    exact List.cons_ne_nil _ _
  · rw [chunks64_long cs h]
    exact List.cons_ne_nil _ _

theorem chunks64_flatten : ∀ cs : List Char, (chunks64 cs).flatten = cs := by
  intro cs
  induction cs using chunks64.induct with
  | case1 cs h1 =>
      rw [chunks64_short cs h1]
      simp
  | case2 cs h1 ih =>
      rw [chunks64_long cs h1]
      simp only [List.flatten_cons, ih]
      exact List.take_append_drop 64 cs

theorem chunks64_length_le : ∀ cs : List Char, ∀ ch ∈ chunks64 cs, ch.length ≤ 64 := by
  intro cs
  induction cs using chunks64.induct with
  | case1 cs h1 =>
      intro ch hch
      rw [chunks64_short cs h1] at hch
      simp only [List.mem_singleton] at hch
      rw [hch]
      exact h1
  | case2 cs h1 ih =>
      intro ch hch
      rw [chunks64_long cs h1] at hch
      rcases List.mem_cons.mp hch with h2 | h2
      · rw [h2]
        simp [List.length_take]
      · exact ih ch h2

theorem intercalate_newline_cons₂ (x y : List Char) (ys : List (List Char)) :
    List.intercalate ['\n'] (x :: y :: ys) =
      x ++ '\n' :: List.intercalate ['\n'] (y :: ys) := by
  simp [List.intercalate, List.intersperse]

theorem wrap64_intercalate : ∀ cs : List Char,
    wrap64 cs = List.intercalate ['\n'] (chunks64 cs) := by
  intro cs
  induction cs using wrap64.induct with
  | case1 cs h1 =>
      rw [wrap64_short cs h1, chunks64_short cs h1]
      simp [List.intercalate]
  | case2 cs h1 ih =>
      rw [wrap64_long cs h1, chunks64_long cs h1, ih]
      rcases hq : chunks64 (cs.drop 64) with _ | ⟨y, ys⟩
      · exact absurd hq (chunks64_ne_nil _)
      · rw [intercalate_newline_cons₂]

theorem toPEM_eq_mk (buffer : List Nat) (label : String) :
    toPEM buffer label = String.mk ((pemHeader label).data ++
      (wrap64 (base64Encode buffer) ++ (pemFooter label).data)) := by
  apply String.ext
  simp [toPEM, pemHeader, pemFooter, String.data_append, List.append_assoc]

theorem pemDecode_mk (label : String) (body : List Char) :
    pemDecode label (String.mk ((pemHeader label).data ++ (body ++ (pemFooter label).data))) =
      base64Decode (body.filter (fun c => c ≠ '\n')) := by
  have hcond2 : ((pemHeader label).data ++ (body ++ (pemFooter label).data)).drop
      (((pemHeader label).data ++ (body ++ (pemFooter label).data)).length -
        (pemFooter label).data.length) = (pemFooter label).data := by
    have hL : ((pemHeader label).data ++ (body ++ (pemFooter label).data)).length -
        (pemFooter label).data.length = ((pemHeader label).data ++ body).length := by
      simp only [List.length_append]
      omega
    have h3 : (pemHeader label).data ++ (body ++ (pemFooter label).data)
        = ((pemHeader label).data ++ body) ++ (pemFooter label).data := by
      rw [List.append_assoc]
    rw [hL, h3, List.drop_left]
  have hbody : (((pemHeader label).data ++ (body ++ (pemFooter label).data)).drop
        (pemHeader label).data.length).take
      (((pemHeader label).data ++ (body ++ (pemFooter label).data)).length -
        (pemHeader label).data.length - (pemFooter label).data.length) = body := by
    have hidx : ((pemHeader label).data ++ (body ++ (pemFooter label).data)).length -
        (pemHeader label).data.length - (pemFooter label).data.length = body.length := by
      simp only [List.length_append]
      omega
    rw [hidx, List.drop_left, List.take_left]
  simp only [pemDecode]
  rw [if_pos (List.take_left _ _), if_pos hcond2, hbody]

/-! ## Claims -/

/-- C1: every store reachable by successful `loadStore` /
`createNewKeyPair` / `rotate` operations from the empty store has
`currentVersion` equal to the maximum version among `keys` (0 when
empty), with version values unique and forming the contiguous ascending
sequence `1, …, currentVersion` in insertion order (`storeInv`); and
every operation preserves this invariant.  (`loadStore` returns the
persisted store unchanged; failed generations leave it unchanged.) -/
theorem c1_store_invariant :
    (∀ tr : List Step, storeInv (runTrace emptyStore tr).2) ∧
    ∀ (s : KeyStore) (st : Step), storeInv s → storeInv (runStep s st).2 :=
  ⟨fun tr => storeInv_runTrace tr emptyStore storeInv_empty,
   fun s st h => storeInv_runStep s st h⟩

theorem c1_store_invariant_witness :
    storeInv (runTrace emptyStore [.rotate (.ok [1, 2] [3]) "t1", .create (.ok [4] [5]) "t2"]).2 ∧
    storeInv (runStep emptyStore (.create .failure "t3")).2 :=
  ⟨c1_store_invariant.1 [.rotate (.ok [1, 2] [3]) "t1", .create (.ok [4] [5]) "t2"],
   c1_store_invariant.2 emptyStore (.create .failure "t3") (by decide)⟩

/-- C2: a successful rotation of a non-empty store satisfying the
invariant advances `currentVersion` from `v` to `v + 1` and appends
exactly one entry, of version `v + 1`, to the end of `keys`; every prior
entry keeps its fields and its position. -/
theorem c2_rotate_nonempty (s : KeyStore) (pkcs8 spki : List Nat) (now : String)
    (_hinv : storeInv s) (_hne : s.keys ≠ []) :
    (rotateKeysRun s (.ok pkcs8 spki) now).2 =
      .ok { currentVersion := s.currentVersion + 1,
            keys := s.keys ++ [{ privateKey := toPEM pkcs8 "PRIVATE KEY",
                                 publicKey := toPEM spki "PUBLIC KEY",
                                 createdAt := now, version := s.currentVersion + 1 }] } := by
  rw [rotateKeysRun_eq, createNewKeyPairRun_ok]

theorem c2_rotate_nonempty_witness :
    (rotateKeysRun ⟨1, [⟨"p", "q", "t0", 1⟩]⟩ (.ok [1] [2]) "t1").2 =
      .ok ⟨2, [⟨"p", "q", "t0", 1⟩,
               ⟨toPEM [1] "PRIVATE KEY", toPEM [2] "PUBLIC KEY", "t1", 2⟩]⟩ :=
  c2_rotate_nonempty ⟨1, [⟨"p", "q", "t0", 1⟩]⟩ [1] [2] "t1" (by decide) (by decide)

/-- C3: rotating the empty store does not fail: it takes the bootstrap
branch, which delegates to `createNewKeyPair`, and a successful
generation yields a store with exactly one key, of version 1, and
`currentVersion = 1`. -/
theorem c3_rotate_empty :
    (∀ (cr : CryptoOutcome) (now : String),
        rotateKeysRun emptyStore cr now = createNewKeyPairRun emptyStore cr now) ∧
    ∀ (pkcs8 spki : List Nat) (now : String),
      (rotateKeysRun emptyStore (.ok pkcs8 spki) now).2 =
        .ok { currentVersion := 1,
              keys := [{ privateKey := toPEM pkcs8 "PRIVATE KEY",
                         publicKey := toPEM spki "PUBLIC KEY",
                         createdAt := now, version := 1 }] } :=
  ⟨fun cr now => rotateKeysRun_eq emptyStore cr now,
   fun pkcs8 spki now => by rw [rotateKeysRun_eq, createNewKeyPairRun_ok]; rfl⟩

/-- C5: `loadStore` never raises to its caller: a missing store file
yields the fresh empty store silently; an unreadable or unparsable file
yields the fresh empty store with a warning logged. -/
theorem c5_load_never_raises :
    loadKeyStoreRun .missing = (emptyStoreJson, false) ∧
    loadKeyStoreRun .unreadable = (emptyStoreJson, true) ∧
    (∀ raw : String, loadKeyStoreRun (.invalidJson raw) = (emptyStoreJson, true)) ∧
    emptyStoreJson = .obj [("currentVersion", .num 0), ("keys", .arr [])] :=
  ⟨rfl, rfl, fun _ => rfl, rfl⟩

/-- C6: when the cryptographic primitive fails, `generateKeyPair` fails
with `KeyGenerationError`, the error propagates through
`createNewKeyPair` and `rotate` to the caller, and nothing is written —
the operations performed stop at ensuring the directory, so the key files
and the persisted store file are untouched and the persisted store is
unchanged. -/
theorem c6_keygen_failure :
    generateKeyPair .failure = .error .keyGenerationError ∧
    ∀ (s : KeyStore) (now : String),
      createNewKeyPairRun s .failure now = ([.ensureDir KEYS_DIR], .error .keyGenerationError) ∧
      rotateKeysRun s .failure now = ([.ensureDir KEYS_DIR], .error .keyGenerationError) ∧
      runStep s (.create .failure now) = ([.ensureDir KEYS_DIR], s) ∧
      runStep s (.rotate .failure now) = ([.ensureDir KEYS_DIR], s) := by
  refine ⟨rfl, fun s now => ⟨?_, ?_, ?_, ?_⟩⟩
  · exact createNewKeyPairRun_failure s now
  · rw [rotateKeysRun_eq]; exact createNewKeyPairRun_failure s now
  · exact runStep_create_failure s now
  · rw [runStep_rotate_eq]; exact runStep_create_failure s now

/-- C10: `loadStore` performs no shape validation on successfully parsed
JSON: a bare number, or an object missing the `keys` field, is returned
as the store instead of the fresh empty store. -/
theorem c10_no_shape_validation :
    hasKeyStoreShape (.num 5) = false ∧
    loadKeyStoreRun (.validJson (.num 5)) = (.num 5, false) ∧
    Json.num 5 ≠ emptyStoreJson ∧
    hasKeyStoreShape (.obj [("currentVersion", .num 1)]) = false ∧
    loadKeyStoreRun (.validJson (.obj [("currentVersion", .num 1)])) =
      (.obj [("currentVersion", .num 1)], false) :=
  ⟨rfl, rfl, fun h => Json.noConfusion h, rfl, rfl⟩

/-- C7: PEM round-trip — for every byte buffer and label, applying the
reference decoder (strip the BEGIN/END delimiter lines, concatenate the
body lines, base64-decode) to `toPEM buffer label` yields exactly the
original buffer. -/
theorem c7_pem_roundtrip (buffer : List Nat) (label : String)
    (h : ∀ b ∈ buffer, b < 256) :
    pemDecode label (toPEM buffer label) = some buffer := by
  rw [toPEM_eq_mk, pemDecode_mk,
    wrap64_filter (base64Encode buffer) (base64Encode_ne_newline buffer),
    base64Decode_encode buffer h]

theorem c7_pem_roundtrip_witness :
    (∀ b ∈ [0, 1, 77, 128, 255], b < 256) ∧
    pemDecode "PRIVATE KEY" (toPEM [0, 1, 77, 128, 255] "PRIVATE KEY") =
      some [0, 1, 77, 128, 255] :=
  ⟨by decide, c7_pem_roundtrip [0, 1, 77, 128, 255] "PRIVATE KEY" (by decide)⟩

/-- C8: `toPEM` is deterministic; its output is the `BEGIN {label}`
delimiter line, then the base64 encoding of the buffer wrapped at 64
characters, then the `END {label}` delimiter line with a trailing
newline (every body chunk has at most 64 characters and the chunks
concatenate back to the full base64 text). -/
theorem c8_topem_structure :
    (∀ (b1 b2 : List Nat) (l1 l2 : String), b1 = b2 → l1 = l2 → toPEM b1 l1 = toPEM b2 l2) ∧
    ∀ (buffer : List Nat) (label : String),
      toPEM buffer label =
        pemHeader label ++ String.mk (wrap64 (base64Encode buffer)) ++ pemFooter label ∧
      wrap64 (base64Encode buffer) =
        List.intercalate ['\n'] (chunks64 (base64Encode buffer)) ∧
      (chunks64 (base64Encode buffer)).flatten = base64Encode buffer ∧
      ∀ ch ∈ chunks64 (base64Encode buffer), ch.length ≤ 64 := by
  refine ⟨fun b1 b2 l1 l2 hb hl => by rw [hb, hl], fun buffer label => ⟨?_, ?_, ?_, ?_⟩⟩
  · apply String.ext
    simp [toPEM, pemHeader, pemFooter, String.data_append, List.append_assoc]
  · exact wrap64_intercalate (base64Encode buffer)
  · exact chunks64_flatten (base64Encode buffer)
  · exact chunks64_length_le (base64Encode buffer)

theorem c8_topem_structure_witness :
    toPEM [72, 101, 108, 108, 111] "PUBLIC KEY" = toPEM [72, 101, 108, 108, 111] "PUBLIC KEY" :=
  c8_topem_structure.1 [72, 101, 108, 108, 111] [72, 101, 108, 108, 111]
    "PUBLIC KEY" "PUBLIC KEY" rfl rfl

/-- C9: per-version key files are never overwritten: over any sequence of
`rotate` / `createNewKeyPair` operations starting from the empty store,
the per-version key-file paths written (`private-v{N}.pem` /
`public-v{N}.pem`) are pairwise distinct — each such path is written at
most once.  (Each successful operation writes only the two files of its
new version, and versions strictly increase along the trace.) -/
theorem c9_keyfiles_never_overwritten (tr : List Step) :
    (keyFileWritePaths (runTrace emptyStore tr).1).Nodup :=
  (runTrace_keyfiles tr emptyStore).2.2

/-- C4 counterexample: `saveKeyStore` is not atomic with respect to the
process.  It performs one direct `writeTextFile` of the serialization to
the store path; a crash during that write can leave a proper prefix of
the new serialization — here the single character `{` — readable at the
store path, which is neither the old content nor the complete new one. -/
theorem c4_counterexample : ¬ atomicSave := fun h => by
  have hmem : setFs KEY_STORE_FILE "\x7b" [] ∈
      crashStates ([] : Fs) (saveKeyStoreRun emptyStore) := by decide
  have := h emptyStore [] _ hmem
  revert this
  decide

/-- C4 amended: `saveStore` overwrites the persisted store file with a
single direct write of the serialized store — no temporary path, no
rename — so an interrupted write can leave a truncated store file
readable by a concurrent reader (for the empty store, the truncated
content `{` is an observable crash state distinct from both the old and
the new contents). -/
theorem c4_save_direct_write (s : KeyStore) :
    saveKeyStoreRun s = [.writeFile KEY_STORE_FILE (stringifyKeyStore s)] ∧
    (∀ op ∈ saveKeyStoreRun s, ∀ src dst, op ≠ .rename src dst) ∧
    setFs KEY_STORE_FILE "\x7b" [] ∈ crashStates ([] : Fs) (saveKeyStoreRun emptyStore) ∧
    lookupFs KEY_STORE_FILE (setFs KEY_STORE_FILE "\x7b" []) ≠ lookupFs KEY_STORE_FILE [] ∧
    lookupFs KEY_STORE_FILE (setFs KEY_STORE_FILE "\x7b" []) ≠
      some (stringifyKeyStore emptyStore) := by
  refine ⟨rfl, ?_, by decide, by decide, by decide⟩
  intro op hop src dst
  simp only [saveKeyStoreRun, List.mem_singleton] at hop
  subst hop
  exact fun hcontra => FsOp.noConfusion hcontra

end KeyManager
